import Mathlib

/-!
# Verification of the ActiveTigger core against its specification

Shallow embedding of the project-orchestration core of ActiveTigger
(`api/activetigger/server.py`, `db.py`, `features.py`,
`app/routers/generation.py`).  Python functions become Lean functions;
the SQLite annotation table becomes an explicit list of rows carrying a
`Nat` timestamp assigned from a monotone clock (the table's `time`
column has `server_default current_timestamp`, so insertion order and
timestamp order agree); raising code returns `Except`.  External
collaborators (the regex engine, pandas seeded sampling, uuid
generation) are passed in as function parameters.
-/

/-- One row of the `annotations` table
(`db.py`, `class Annotations`): action, user, project, element id,
scheme, tag (the annotation, nullable) and a timestamp. -/
structure AnnRow where
  action : String
  user : String
  project : String
  element_id : String
  scheme : String
  tag : Option String
  time : Nat
  deriving Repr, DecidableEq

/-- The state behind the `Schemes` class of `server.py`: the project
slug, the `schemes` table (name and label list, i.e. the decoded
`params` JSON), the `annotations` table and a monotone clock supplying
the `time` column of new rows. -/
structure SchemesState where
  project_slug : String
  schemes : List (String × List String)
  rows : List AnnRow
  clock : Nat
  deriving Repr, DecidableEq

/-- Well-formedness: every stored timestamp is below the clock, so any
newly appended row is strictly later than all existing rows. -/
def SchemesState.WF (s : SchemesState) : Prop :=
  ∀ r ∈ s.rows, r.time < s.clock

instance (s : SchemesState) : Decidable s.WF := by
  unfold SchemesState.WF; infer_instance

/-- `INSERT INTO annotations (action, user, project, element_id,
scheme, tag) VALUES (...)` with the default timestamp. -/
def appendRow (s : SchemesState) (action user element_id scheme : String)
    (tag : Option String) : SchemesState :=
  { s with
    rows := s.rows ++ [⟨action, user, s.project_slug, element_id, scheme, tag, s.clock⟩]
    clock := s.clock + 1 }

/-- `Schemes.push_tag` (`server.py`): validates that the scheme exists
and that a non-null tag belongs to the scheme's labels, then inserts
one annotation row.  Returns the new state and whether the push
succeeded (the code returns an error dict and leaves the table
untouched otherwise). -/
def push_tag (s : SchemesState) (element_id : String) (tag : Option String)
    (scheme : String) (user : String) (action : String) : SchemesState × Bool :=
  match s.schemes.lookup scheme with
  | none => (s, false)
  | some labels =>
    match tag with
    | some t =>
      if labels.contains t then (appendRow s action user element_id scheme tag, true)
      else (s, false)
    | none => (appendRow s action user element_id scheme tag, true)

/-- The WHERE clause of the latest-per-element query in
`Schemes.get_scheme_data`: same scheme, same project, action among the
requested kinds. -/
def matchesQuery (slug scheme : String) (kinds : List String) (r : AnnRow) : Bool :=
  r.scheme == scheme && r.project == slug && kinds.contains r.action

/-- All annotation rows selected by the WHERE clause. -/
def relevantRows (s : SchemesState) (scheme : String) (kinds : List String) : List AnnRow :=
  s.rows.filter (matchesQuery s.project_slug scheme kinds)

/-- The rows of one `GROUP BY element_id` group. -/
def rowsFor (s : SchemesState) (scheme : String) (kinds : List String)
    (e : String) : List AnnRow :=
  (relevantRows s scheme kinds).filter (fun r => r.element_id == e)

/-- The later of two rows (later-or-equal wins, matching an arbitrary
SQLite tie-break; under `WF` the timestamps are distinct anyway). -/
def laterOf (a b : AnnRow) : AnnRow :=
  if a.time ≤ b.time then b else a

/-- SQLite's `MAX(time)` with bare columns: from a group of rows,
the row on which the maximum timestamp is realised. -/
def maxTimeRow : List AnnRow → Option AnnRow
  | [] => none
  | r :: rs => some (rs.foldl laterOf r)

/-- The bare-column row of the group of element `e`. -/
def latestFor (s : SchemesState) (scheme : String) (kinds : List String)
    (e : String) : Option AnnRow :=
  maxTimeRow (rowsFor s scheme kinds e)

/-- The distinct element ids appearing in the selected rows (the
`GROUP BY element_id` groups). -/
def elementsOf (s : SchemesState) (scheme : String) (kinds : List String) : List String :=
  ((relevantRows s scheme kinds).map (·.element_id)).dedup

/-- `Schemes.get_scheme_data` (`server.py`):
`SELECT element_id, tag, user, MAX(time) FROM annotations WHERE scheme
= ? AND project = ? AND action IN kinds GROUP BY element_id` — one row
per element id, bare columns taken from the max-timestamp row of the
group.  Note the query groups by element id only, not by user. -/
def get_scheme_data (s : SchemesState) (scheme : String)
    (kinds : List String) : List (String × Option String × String × Nat) :=
  (elementsOf s scheme kinds).filterMap (fun e =>
    (latestFor s scheme kinds e).map (fun r => (e, r.tag, r.user, r.time)))

/-- The rows of one `(element, user)` key — what the spec's
"(project, element, scheme, user)" key selects. -/
def perUserRows (s : SchemesState) (scheme : String) (kinds : List String)
    (e u : String) : List AnnRow :=
  (rowsFor s scheme kinds e).filter (fun r => r.user == u)

/-- The max-timestamp row of one `(element, user)` key. -/
def perUserLatest (s : SchemesState) (scheme : String) (kinds : List String)
    (e u : String) : Option AnnRow :=
  maxTimeRow (perUserRows s scheme kinds e u)

/-- The `labels` column that `get_scheme_data` exposes for an element:
`some (tag of the latest "add" row)` if the element has a row, `none`
otherwise (distinguishing "never annotated" from "null label"). -/
def currentLabelRec (s : SchemesState) (scheme : String) (e : String) :
    Option (Option String) :=
  (latestFor s scheme ["add"] e).map (·.tag)

/-- `df[df["labels"] == former_label].index` inside
`Schemes.convert_tags`: the elements whose current label equals the
former label. -/
def to_recode (s : SchemesState) (scheme former : String) : List String :=
  (get_scheme_data s scheme ["add"]).filterMap (fun row =>
    if row.2.1 = some former then some row.1 else none)

/-- `Schemes.convert_tags` (`server.py`): for each element currently
labelled `former`, push the new tag. -/
def convert_tags (s : SchemesState) (former new_label scheme username : String) :
    SchemesState :=
  (to_recode s scheme former).foldl
    (fun st e => (push_tag st e (some new_label) scheme username "add").1) s

/-! ## Queue (`server.py`, `class Queue`) -/

/-- What the code observes of a `concurrent.futures` future: it is
either running or it is not (`future.running()`), and a non-running
future exposes an optional exception (`future.exception()`). -/
inductive FutStatus where
  | running : FutStatus
  | finished : Option String → FutStatus
  deriving Repr, DecidableEq

/-- One entry of `Queue.current` (the stack): the task kind and its
future.  The `Manager().Event()` cancel signals are kept separately in
`QueueSt.events` because they are shared with the worker and outlive
the stack entry. -/
structure QTask where
  kind : String
  fut : FutStatus
  deriving Repr, DecidableEq

/-- The queue state: the `current` stack (unique id ↦ task) and the
cancel-signal events (unique id ↦ set?). -/
structure QueueSt where
  current : List (String × QTask)
  events : List (String × Bool)
  deriving Repr, DecidableEq

/-- `Queue.add`: submit a task; the new entry carries a fresh event. -/
def queue_add (q : QueueSt) (uid kind : String) (fut : FutStatus) : QueueSt :=
  { current := q.current ++ [(uid, ⟨kind, fut⟩)]
    events := q.events ++ [(uid, false)] }

/-- `event.set()` on the event of `uid`. -/
def setEvent (evs : List (String × Bool)) (uid : String) : List (String × Bool) :=
  evs.map (fun p => if p.1 == uid then (p.1, true) else p)

/-- `Queue.delete`: `del self.current[i]` — removes the stack entry. -/
def queue_delete (q : QueueSt) (uid : String) : QueueSt :=
  { q with current := q.current.filter (fun p => !(p.1 == uid)) }

/-- `Queue.kill`: if the id is unknown, return an error; otherwise set
the cancel event and immediately delete the entry from the stack.
Returns the new state and whether the kill succeeded. -/
def queue_kill (q : QueueSt) (uid : String) : QueueSt × Bool :=
  if (q.current.lookup uid).isNone then (q, false)
  else (queue_delete { q with events := setEvent q.events uid } uid, true)

/-- `Queue.state`: for each stack entry report `"running"` if the
future is running, else `"done"` together with its exception. -/
def queue_state (q : QueueSt) : List (String × String × Option String) :=
  q.current.map (fun p =>
    match p.2.fut with
    | .running => (p.1, "running", none)
    | .finished exc => (p.1, "done", exc))

/-! ## Project creation (`Server.create_project`, `server.py`) -/

/-- A corpus row as `create_project` sees it after renaming: an id and
an optional label (`col_label`). -/
structure DataRow where
  id : String
  label : Option String
  deriving Repr, DecidableEq

/-- `content[~content.index.duplicated(keep="first")]`: keep the first
row of each id. -/
def dedupById (l : List DataRow) : List DataRow :=
  go [] l
where
  go : List String → List DataRow → List DataRow
  | _, [] => []
  | seen, r :: rs =>
    if seen.contains r.id then go seen rs
    else r :: go (r.id :: seen) rs

/-- The unlabelled pool used for the test draw
(`f = content["label"].isna()` on the deduplicated corpus). -/
def cpTestPool (content0 : List DataRow) : List DataRow :=
  (dedupById content0).filter (fun r => r.label.isNone)

/-- Step 2 of `create_project`: the test rows, drawn from the
unlabelled pool only (`f = content["label"].isna()`), or `none` when
the pool is too small; an empty test set when `n_test = 0`. -/
def cpChosenTest (tsel : List DataRow → List DataRow) (content0 : List DataRow)
    (nTest : Nat) : Option (List DataRow) :=
  if nTest ≠ 0 then
    if (cpTestPool content0).length < nTest then none
    else some (tsel (cpTestPool content0))
  else some []

/-- `content.drop(rows_test)`: the pool with the test ids removed. -/
def cpRemaining (content0 : List DataRow) (testset : List DataRow) : List DataRow :=
  (dedupById content0).filter (fun r => !((testset.map (·.id)).contains r.id))

/-- Step 3 of `create_project`: the train rows — labelled rows first,
topped up with a draw from the unlabelled remainder. -/
def cpTrain (samp : Nat → List DataRow → List DataRow) (content0 : List DataRow)
    (nTrain : Nat) (testset : List DataRow) : List DataRow :=
  if nTrain < ((cpRemaining content0 testset).filter (fun r => r.label.isSome)).length
  then samp nTrain ((cpRemaining content0 testset).filter (fun r => r.label.isSome))
  else ((cpRemaining content0 testset).filter (fun r => r.label.isSome)) ++
    samp (nTrain - ((cpRemaining content0 testset).filter (fun r => r.label.isSome)).length)
      ((cpRemaining content0 testset).filter (fun r => r.label.isNone))

/-- The train/test partitioning of `Server.create_project`
(`server.py`).  `tsel` embeds the seeded (possibly stratified) pandas
sampling of the test rows and `samp` the seeded sampling used for the
train rows; both are external draws, so they are parameters — the
theorems only assume they return rows of their input.  Steps, as in the
source: size check; index dedup; test set drawn from the unlabelled
rows only; `content.drop(rows_test)`; train set made of the labelled
rows topped up with unlabelled ones. -/
def create_project (tsel : List DataRow → List DataRow)
    (samp : Nat → List DataRow → List DataRow)
    (content0 : List DataRow) (nTest nTrain : Nat) :
    Except String (List DataRow × List DataRow) :=
  if content0.length < nTest + nTrain then .error "Not enough data" else
  match cpChosenTest tsel content0 nTest with
  | none => .error "Not enough data for creating the test dataset"
  | some testset => .ok (cpTrain samp content0 nTrain testset, testset)

/-! ## Features store (`features.py`, `class Features`) -/

/-- The observable state of the features parquet store: the feature
names (`self.map` keys) and the row count `self.n`. -/
structure FeaturesSt where
  names : List String
  n : Nat
  deriving Repr, DecidableEq

/-- `Features.create_features_file`: the store is rebuilt from the
train partition plus the valid and test partitions when their files
exist; initially it has no feature columns and one row per element. -/
def create_features_file (train : List String) (valid test : Option (List String)) :
    FeaturesSt :=
  { names := []
    n := train.length + (valid.map List.length).getD 0 + (test.map List.length).getD 0 }

/-- The failures of `Features.add`: duplicate name
(`Exception("Feature already exists")`) or shape mismatch
(`ValueError("Features don't have the right shape")`). -/
inductive FeatErr where
  | alreadyExists : FeatErr
  | shapeErr : FeatErr
  deriving Repr, DecidableEq

/-- `Features.add` (`features.py`): reject a duplicate name, then
reject content whose row count differs from `self.n`, then persist the
prefixed columns and register the name. -/
def features_add (st : FeaturesSt) (name : String) (new_content : List (List Rat)) :
    Except FeatErr FeaturesSt :=
  if st.names.contains name then .error .alreadyExists
  else if new_content.length ≠ st.n then .error .shapeErr
  else .ok { st with names := st.names ++ [name] }

/-! ## Feature computation (`features.py`, `Features.compute`) -/

/-- One entry of `Features.computing` (a `FeatureComputing` record). -/
structure FeatComputing where
  unique_id : String
  kind : String
  user : String
  name : String
  deriving Repr, DecidableEq

/-- The runtime of the `Features` service: the columnar store, the
in-flight computation list shared with the project, and the tasks
submitted to the queue (unique id and task kind). -/
structure FeatService where
  store : FeaturesSt
  computing : List FeatComputing
  queued : List (String × String)
  sbertModels : List String
  deriving Repr, DecidableEq

/-- The failures `Features.compute` can raise. -/
inductive CompErr where
  | conflict : CompErr
  | badKind : CompErr
  | noValue : CompErr
  | alreadyExists : CompErr
  | addErr : FeatErr → CompErr
  | missingParam : CompErr
  | nullValues : CompErr
  | notNumeric : CompErr
  | noModelAvailable : CompErr
  deriving Repr, DecidableEq

/-- `Features.current_user_processes`: the in-flight computations owned
by a user (of any kind). -/
def current_user_processes (fs : FeatService) (user : String) : List FeatComputing :=
  fs.computing.filter (fun e => e.user == user)

/-- `queue.add_task` as the features service sees it: returns a fresh
unique id and records the submission. -/
def featAddTask (fs : FeatService) (kind : String) : FeatService × String :=
  let uid := "task" ++ toString fs.queued.length
  ({ fs with queued := fs.queued ++ [(uid, kind)] }, uid)

/-- `Features.compute` (`features.py`).  The conflict check comes
first: a user with any pending computation gets
`ValueError("A process is already running")` and nothing is changed.
`matcher` embeds the compiled regex search, `rawColumn` the raw-parquet
column read, `toNum` the `float` coercion; `texts` is the text series
(id, text).  Synchronous kinds (`regex`, `dataset`) call
`features_add`; asynchronous kinds submit one task to the queue and
append a `FeatureComputing` entry. -/
def features_compute (fs : FeatService) (matcher : String → String → Bool)
    (rawColumn : String → Option (List (Option String)))
    (toNum : String → Option Rat)
    (texts : List (String × String)) (kind user : String)
    (params : List (String × String)) : FeatService × Except CompErr String :=
  if 0 < (current_user_processes fs user).length then (fs, .error .conflict)
  else if !(["sbert", "fasttext", "dfm", "regex", "dataset"].contains kind) then
    (fs, .error .badKind)
  else if kind == "regex" then
    match params.lookup "value" with
    | none => (fs, .error .noValue)
    | some v =>
      let rname := "regex_[" ++ v ++ "]_by_" ++ user
      if fs.store.names.contains rname then (fs, .error .alreadyExists)
      else
        match features_add fs.store rname
            (texts.map (fun t => [if matcher v t.2 then (1 : Rat) else 0])) with
        | .error e => (fs, .error (.addErr e))
        | .ok st => ({ fs with store := st }, .ok "regex added")
  else if kind == "dataset" then
    match params.lookup "dataset_col" with
    | none => (fs, .error .missingParam)
    | some colName =>
      match rawColumn colName with
      | none => (fs, .error .missingParam)
      | some col =>
        if (col.filterMap id).length ≠ col.length then (fs, .error .nullValues)
        else
          let converted : Except CompErr (List (List Rat)) :=
            if params.lookup "dataset_type" == some "Numeric" then
              match (col.filterMap id).mapM toNum with
              | none => .error .notNumeric
              | some qs => .ok (qs.map (fun q => [q]))
            else .ok ((col.filterMap id).map (fun _ => [0]))
          match converted with
          | .error e => (fs, .error e)
          | .ok content =>
            let dname := ("dataset_" ++ colName ++ "_" ++
              ((params.lookup "dataset_type").getD "")).toLower
            if fs.store.names.contains dname then (fs, .error .alreadyExists)
            else
              match features_add fs.store dname content with
              | .error e => (fs, .error (.addErr e))
              | .ok st => ({ fs with store := st }, .ok "Feature added")
  else if kind == "sbert" then
    let chosen : Option String :=
      match params.lookup "model" with
      | none => fs.sbertModels.head?
      | some m => if m == "generic" then fs.sbertModels.head? else some m
    match chosen with
    | none => (fs, .error .noModelAvailable)
    | some model =>
      let nm := "sbert_" ++ model.replace "/" "_"
      if fs.store.names.contains nm then (fs, .error .alreadyExists)
      else
        let (fs2, uid) := featAddTask fs "feature"
        ({ fs2 with computing := fs2.computing ++ [⟨uid, "feature", user, nm⟩] },
         .ok "Feature in training")
  else if kind == "fasttext" then
    match params.lookup "model" with
    | none => (fs, .error .missingParam)
    | some model =>
      let nm := "fasttext_" ++ model
      if fs.store.names.contains nm then (fs, .error .alreadyExists)
      else
        let nm2 := if model ≠ "" then nm ++ "_" ++ model else nm
        let (fs2, uid) := featAddTask fs "feature"
        ({ fs2 with computing := fs2.computing ++ [⟨uid, "feature", user, nm2⟩] },
         .ok "Feature in training")
  else
    if fs.store.names.contains "dfm" then (fs, .error .alreadyExists)
    else
      let (fs2, uid) := featAddTask fs "feature"
      ({ fs2 with computing := fs2.computing ++ [⟨uid, "feature", user, "dfm"⟩] },
       .ok "Feature in training")

/-! ## Generation prompt validation
(`app/routers/generation.py`, `postgenerate`) -/

/-- Python's `\w` on the prompts this router sees: alphanumeric or
underscore. -/
def wordChar (c : Char) : Bool :=
  c.isAlphanum || c == '_'

/-- `re.findall("[\[]{2}\w{1,}[\]]{2}", prompt)` as a left-to-right
scanner: at each position try to match `[[`, a non-empty maximal run of
word characters, then `]]` (greedy matching never backtracks here since
a shorter run would be followed by a word character, not `]`); on a
match emit the name and resume after it, otherwise advance one
character.  The fuel argument strictly exceeds the list length, so it
never runs out. -/
def scanTagsAux : Nat → List Char → List String
  | 0, _ => []
  | _ + 1, [] => []
  | fuel + 1, c :: cs =>
    match c, cs with
    | '[', '[' :: rest =>
      let w := rest.takeWhile wordChar
      match w, rest.drop w.length with
      | _ :: _, ']' :: ']' :: after => String.mk w :: scanTagsAux fuel after
      | _, _ => scanTagsAux fuel cs
    | _, _ => scanTagsAux fuel cs

/-- All `[[NAME]]` tokens of a prompt, in order. -/
def findPromptTags (s : String) : List String :=
  scanTagsAux (s.toList.length + 1) s.toList

/-- `postgenerate` (`generation.py`): every `[[NAME]]` token must have
`NAME` equal to `TEXT` or be one of the project's context columns;
the first offending token raises an `HTTPException` before
`project.start_generation` is reached, so `.ok` means the generation
task was started and `.error` means it was not. -/
def postgenerate (cols_context : List String) (prompt : String) : Except String Unit :=
  match (findPromptTags prompt).find?
      (fun t => !(t == "TEXT" || cols_context.contains t)) with
  | some t => .error ("The tag [[" ++ t ++ "]] is not part of the registered context columns")
  | none => .ok ()

/-! ## Models table (`db.py`, `DatabaseManager.change_model_status`) -/

/-- One row of the `models` table (the columns the operation reads). -/
structure ModelRow where
  project : String
  name : String
  user : String
  scheme : String
  status : String
  deriving Repr, DecidableEq

/-- Update the first row matching `(name, project)`; its status is set
to the literal `"trained"`. -/
def setFirstTrained (name project : String) : List ModelRow → List ModelRow
  | [] => []
  | m :: ms =>
    if m.name == name && m.project == project then { m with status := "trained" } :: ms
    else m :: setFirstTrained name project ms

/-- `DatabaseManager.change_model_status` (`db.py`): fetch the first
row matching `(name, project)` — `None` raises an `AttributeError`
when no row matches — and write `model.status = "trained"`, ignoring
the `status` argument entirely. -/
def change_model_status (models : List ModelRow) (project name _status : String) :
    Except String (List ModelRow) :=
  if (models.find? (fun m => m.name == name && m.project == project)).isNone then
    .error "AttributeError: NoneType has no attribute status"
  else .ok (setFirstTrained name project models)

/-! ## Project aggregate and selection (`server.py`, `Project.get_next`) -/

/-- One row of the train content (`self.content`): id, text, the
context columns (name, value) and the `limit` column. -/
structure ContentRow where
  id : String
  text : String
  context : List (String × String)
  lim : Nat
  deriving Repr, DecidableEq

/-- Modelled from the spec: the `SimpleModels` container of
`activetigger.models` is not part of the sources (only its callers
are).  Per §4.5 a quick model is kept per (user, scheme) and its
prediction table `sm.proba`, indexed by element id, holds per-class
probabilities, the argmax label (`prediction`) and a row-wise Shannon
entropy. -/
structure SimpleModel where
  index : List String
  proba : String → String → Rat
  prediction : String → String
  entropyOf : String → Rat

/-- The per-project state `Project.get_next` reads: the schemes
service, the train content, the per-user 2-D projections (element id ↦
coordinates; present iff the user has computed one with data) and the
quick models keyed by (user, scheme). -/
structure ProjectState where
  schemesSt : SchemesState
  content : List ContentRow
  projections : List (String × List (String × Rat × Rat))
  simplemodels : List ((String × String) × SimpleModel)

/-- The `labels` column after `self.content.join(annotations)`: the
latest tag of the element among the requested action kinds, `none`
both when the element was never annotated and when its latest tag is
null (pandas `isnull` treats both as missing). -/
def labelOf (ps : ProjectState) (scheme : String) (kinds : List String)
    (e : String) : Option String :=
  (latestFor ps.schemesSt scheme kinds e).bind (·.tag)

/-- The sample filter: `untagged` keeps null labels, `tagged` keeps
non-null labels, anything else keeps everything (the code initialises
`f` to all-true and only overrides it for those two strings). -/
def samplePass (sample : String) (lab : Option String) : Bool :=
  if sample == "untagged" then lab.isNone
  else if sample == "tagged" then lab.isSome
  else true

/-- `" ".join(row.values.astype(str))` over the context columns. -/
def contextConcat (r : ContentRow) : String :=
  " ".intercalate (r.context.map (·.2))

/-- `"CONTEXT=" in filter` — substring containment. -/
def containsSub (s sub : String) : Bool :=
  1 < (s.splitOn sub).length

/-- The regex sub-filter of `get_next`.  `matcher pattern text` embeds
`Series.str.contains(pattern, regex=True, case=True)` on one value;
a filter containing `CONTEXT=` is applied, with that marker removed,
to the concatenated context columns instead of the text. -/
def regexPass (matcher : String → String → Bool) (filt : Option String)
    (r : ContentRow) : Bool :=
  match filt with
  | none => true
  | some pat =>
    if containsSub pat "CONTEXT=" then
      matcher (pat.replace "CONTEXT=" "") (contextConcat r)
    else matcher pat r.text

/-- The frame sub-filter: when the user has a projection with data and
a frame is given, keep the elements whose projected coordinates lie
strictly inside the rectangle; elements missing from the projection are
dropped by the pandas index alignment.  When the frame is absent the
code raises inside the `try` block and the bare `except` leaves the
filter unchanged; likewise without a projection no filter applies. -/
def framePass (ps : ProjectState) (user : String)
    (frame : Option (Rat × Rat × Rat × Rat)) (r : ContentRow) : Bool :=
  match ps.projections.lookup user, frame with
  | some proj, some (xmin, xmax, ymin, ymax) =>
    match proj.lookup r.id with
    | some (x, y) => decide (xmin < x) && decide (x < xmax) &&
        decide (ymin < y) && decide (y < ymax)
    | none => false
  | _, _ => true

/-- The combined filter `f` of `get_next` (sample, then regex, then
frame), applied to the joined content. -/
def filteredRows (ps : ProjectState) (matcher : String → String → Bool)
    (scheme sample user : String) (frame : Option (Rat × Rat × Rat × Rat))
    (filt : Option String) : List ContentRow :=
  ps.content.filter (fun r =>
    samplePass sample (labelOf ps scheme ["add"] r.id) &&
    regexPass matcher filt r && framePass ps user frame r)

/-- `df[f].drop(history, errors="ignore")`: the filtered rows minus the
caller-supplied history. -/
def candidatesOf (ps : ProjectState) (matcher : String → String → Bool)
    (scheme sample user : String) (frame : Option (Rat × Rat × Rat × Rat))
    (filt : Option String) (history : List String) : List ContentRow :=
  (filteredRows ps matcher scheme sample user frame filt).filter
    (fun r => !(history.contains r.id))

/-- How `get_next` can fail: the checked "No element available" error,
and the unclassified Python exceptions the other paths raise —
`IndexError` from `.index[0]` on an empty frame, `ValueError` from
`.sample()` on an empty frame, the missing-simplemodel and missing-tag
error dicts, `KeyError` from `sm.proba.loc` on an unknown id,
`UnboundLocalError` for an unknown selection mode, and the error dict
returned when the scheme does not exist. -/
inductive GErr where
  | noElement : GErr
  | indexErr : GErr
  | valueErr : GErr
  | noModel : GErr
  | noTag : GErr
  | keyErr : GErr
  | unboundLocal : GErr
  | schemeMissing : GErr
  deriving Repr, DecidableEq

/-- The element payload `get_next` returns. -/
structure NextElement where
  element_id : String
  text : String
  context : List (String × String)
  selection : String
  info : Option (String × Option Rat)
  predictLabel : Option String
  predictProba : Option Rat
  frame : Option (Rat × Rat × Rat × Rat)
  lim : Nat
  histTags : List (Option String × String × String × Nat)
  deriving Repr, DecidableEq

/-- `proba = sm.proba.reindex(f.index)` at one element: the probability
for `tag` when the element is in the model's index, `NaN` (`none`)
otherwise. -/
def probaOf (sm : SimpleModel) (tag e : String) : Option Rat :=
  if sm.index.contains e then some (sm.proba e tag) else none

/-- The reindexed entropy column at one element. -/
def entropyOpt (sm : SimpleModel) (e : String) : Option Rat :=
  if sm.index.contains e then some (sm.entropyOf e) else none

/-- The descending order `sort_values(ascending=False)` uses, with
`NaN` (`none`) placed last: `none` is below every value. -/
def optLt : Option Rat → Option Rat → Bool
  | none, some _ => true
  | some a, some b => decide (a < b)
  | _, none => false

/-- One step of the running-maximum fold: keep the accumulator unless
the new row's key is strictly greater. -/
def argmaxStep (key : ContentRow → Option Rat) (acc : Option ContentRow)
    (r : ContentRow) : Option ContentRow :=
  match acc with
  | none => some r
  | some a => if optLt (key a) (key r) then some r else some a

/-- `series.sort_values(ascending=False).index[0]`: a row achieving
the maximum of the key (`none` counts as bottom), `none` on an empty
list.  The first maximal row is kept; the pandas tie order is
unspecified, and the theorems only use that the result is maximal. -/
def argmaxByKey (key : ContentRow → Option Rat) (l : List ContentRow) :
    Option ContentRow :=
  l.foldl (argmaxStep key) none

/-- Insertion into a list sorted by decreasing timestamp. -/
def insertByTimeDesc (r : AnnRow) : List AnnRow → List AnnRow
  | [] => [r]
  | x :: xs => if x.time ≤ r.time then r :: x :: xs else x :: insertByTimeDesc r xs

/-- Sort annotation rows by decreasing timestamp (`ORDER BY time
DESC`). -/
def sortByTimeDesc (l : List AnnRow) : List AnnRow :=
  l.foldr insertByTimeDesc []

/-- `Schemes.get_element_tags`: the element's annotation rows of this
project and scheme, newest first, at most `n_max` of them, as
(tag, action, user, time). -/
def get_element_tags (s : SchemesState) (element_id scheme : String)
    (n_max : Nat := 10) : List (Option String × String × String × Nat) :=
  ((sortByTimeDesc (s.rows.filter (fun r =>
      r.project == s.project_slug && r.scheme == scheme &&
      r.element_id == element_id))).take n_max).map
    (fun r => (r.tag, r.action, r.user, r.time))

/-- The branch of `get_next` that picks a row and an indicator,
after the zero-candidate check (`deterministic`, `random`, `maxprob`,
`active`, and the fall-through where `element_id` was never bound). -/
def selectRow (ps : ProjectState) (pick : List ContentRow → Option ContentRow)
    (selection user scheme : String) (tag : Option String)
    (cands : List ContentRow) : Except GErr (ContentRow × Option (String × Option Rat)) :=
  if selection == "deterministic" then
    match cands.head? with
    | none => .error .indexErr
    | some r => .ok (r, none)
  else if selection == "random" then
    match pick cands with
    | none => .error .indexErr
    | some r => .ok (r, none)
  else if selection == "maxprob" then
    match ps.simplemodels.lookup (user, scheme) with
    | none => .error .noModel
    | some sm =>
      match tag with
      | none => .error .noTag
      | some t =>
        match argmaxByKey (fun r => probaOf sm t r.id) cands with
        | none => .error .indexErr
        | some r => .ok (r, some ("probability", probaOf sm t r.id))
  else if selection == "active" then
    match ps.simplemodels.lookup (user, scheme) with
    | none => .error .noModel
    | some sm =>
      match argmaxByKey (fun r => entropyOpt sm r.id) cands with
      | none => .error .indexErr
      | some r => .ok (r, some ("entropy", entropyOpt sm r.id))
  else .error .unboundLocal

/-- `Project.get_next` (`server.py`).  `matcher` embeds the regex
engine and `pick` the seeded `DataFrame.sample`.  Control flow as in
the source: the `test` branch first (note its join lands on the train
content because `kind == "test"` compares a list with a string, and it
never checks for emptiness before `.sample()`); then the filters, the
zero-candidate check — which runs *before* the history exclusion —
then the per-mode choice, then the prediction block (whose
`sm.proba.loc` raises on an id outside the model index), the element
history and the payload. -/
def get_next (ps : ProjectState) (matcher : String → String → Bool)
    (pick : List ContentRow → Option ContentRow)
    (scheme selection sample user : String) (tag : Option String)
    (history : List String) (frame : Option (Rat × Rat × Rat × Rat))
    (filt : Option String) : Except GErr NextElement :=
  if (ps.schemesSt.schemes.lookup scheme).isNone then .error .schemeMissing
  else if selection == "test" then
    let rows := ps.content.filter (fun r => (labelOf ps scheme ["test"] r.id).isNone)
    match pick rows with
    | none => .error .valueErr
    | some r =>
      .ok { element_id := r.id, text := r.text, context := r.context,
            selection := "test", info := none, predictLabel := none,
            predictProba := none, frame := none, lim := 1200, histTags := [] }
  else
    let rows := filteredRows ps matcher scheme sample user frame filt
    if rows.length = 0 then .error .noElement
    else
      let cands := rows.filter (fun r => !(history.contains r.id))
      match selectRow ps pick selection user scheme tag cands with
      | .error e => .error e
      | .ok (r, info) =>
        match ps.simplemodels.lookup (user, scheme) with
        | some sm =>
          if sm.index.contains r.id then
            let pl := sm.prediction r.id
            .ok { element_id := r.id, text := r.text, context := r.context,
                  selection := selection, info := info,
                  predictLabel := some pl, predictProba := some (sm.proba r.id pl),
                  frame := frame, lim := r.lim,
                  histTags := get_element_tags ps.schemesSt r.id scheme }
          else .error .keyErr
        | none =>
          .ok { element_id := r.id, text := r.text, context := r.context,
                selection := selection, info := info,
                predictLabel := none, predictProba := none,
                frame := frame, lim := r.lim,
                histTags := get_element_tags ps.schemesSt r.id scheme }

/-! ## Concrete states used by witnesses and counterexamples -/

/-- A first annotation of element `e1` by user `u1`. -/
def annA : AnnRow := ⟨"add", "u1", "proj", "e1", "default", some "a", 0⟩

/-- A later annotation of the same element by another user. -/
def annB : AnnRow := ⟨"add", "u2", "proj", "e1", "default", some "b", 1⟩

/-- A two-user history on one element. -/
def sTwoUsers : SchemesState :=
  ⟨"proj", [("default", ["a", "b"])], [annA, annB], 2⟩

/-- A live queue with one running task whose event is not set. -/
def qOne : QueueSt :=
  ⟨[("t1", ⟨"feature", .running⟩)], [("t1", false)]⟩

/-- One content row, untagged. -/
def rowE1 : ContentRow := ⟨"e1", "hello world", [], 1200⟩

/-- A second content row. -/
def rowE2 : ContentRow := ⟨"e2", "more text", [], 1200⟩

/-- A project whose only element is untagged and with no quick model. -/
def psEmptyModel : ProjectState :=
  { schemesSt := ⟨"p", [("default", ["a"])], [], 0⟩
    content := [rowE1]
    projections := []
    simplemodels := [] }

/-- A quick model over both content rows that prefers `e2` for label
`"a"`. -/
def smTwo : SimpleModel :=
  { index := ["e1", "e2"]
    proba := fun e t => if e == "e2" && t == "a" then 9/10 else 1/10
    prediction := fun _ => "a"
    entropyOf := fun _ => 0 }

/-- A project with two untagged rows and a quick model for
`("u1", "default")`. -/
def psWithModel : ProjectState :=
  { schemesSt := ⟨"p", [("default", ["a", "b"])], [], 0⟩
    content := [rowE1, rowE2]
    projections := []
    simplemodels := [(("u1", "default"), smTwo)] }

/-- A features service with one pending computation owned by `u1`. -/
def fsBusy : FeatService :=
  { store := { names := [], n := 2 }
    computing := [⟨"task0", "feature", "u1", "sbert_all-mpnet-base-v2"⟩]
    queued := [("task0", "feature")]
    sbertModels := ["all-mpnet-base-v2"] }

/-- Taking a prefix is one way the external sampler can draw rows. -/
def takeRows (n : Nat) (l : List DataRow) : List DataRow := l.take n

/-- A four-row corpus: two labelled, two unlabelled. -/
def corpus4 : List DataRow :=
  [⟨"1", some "x"⟩, ⟨"2", none⟩, ⟨"3", some "y"⟩, ⟨"4", none⟩]

/-- A one-row model table. -/
def modelsOne : List ModelRow :=
  [⟨"proj", "m1", "u1", "default", "queued"⟩]

/-! ## Helper lemmas: the max-timestamp row -/

theorem foldl_laterOf_mem (l : List AnnRow) (a : AnnRow) :
    l.foldl laterOf a ∈ a :: l := by
  induction l generalizing a with
  | nil => simp
  | cons c l ih =>
    have h := ih (laterOf a c)
    have hlater : laterOf a c = c ∨ laterOf a c = a := by
      unfold laterOf; split <;> simp
    simp only [List.foldl_cons]
    rcases List.mem_cons.mp h with h1 | h1
    · rcases hlater with h2 | h2 <;> simp [h1 ▸ h2, List.mem_cons]
    · simp [List.mem_cons, h1]

theorem foldl_laterOf_le (l : List AnnRow) (a : AnnRow) :
    ∀ x ∈ a :: l, x.time ≤ (l.foldl laterOf a).time := by
  induction l generalizing a with
  | nil => simp
  | cons c l ih =>
    intro x hx
    simp only [List.foldl_cons]
    have hle : a.time ≤ (laterOf a c).time ∧ c.time ≤ (laterOf a c).time := by
      unfold laterOf; split <;> omega
    have hstep := ih (laterOf a c) (laterOf a c) (List.mem_cons_self _ _)
    rcases List.mem_cons.mp hx with h1 | h1
    · subst h1; exact le_trans hle.1 hstep
    · rcases List.mem_cons.mp h1 with h2 | h2
      · subst h2; exact le_trans hle.2 hstep
      · exact ih (laterOf a c) x (List.mem_cons_of_mem _ h2)

theorem maxTimeRow_mem {l : List AnnRow} {r : AnnRow} (h : maxTimeRow l = some r) :
    r ∈ l := by
  cases l with
  | nil => simp [maxTimeRow] at h
  | cons c l =>
    simp only [maxTimeRow, Option.some_inj] at h
    exact h ▸ foldl_laterOf_mem l c

theorem maxTimeRow_le {l : List AnnRow} {r : AnnRow} (h : maxTimeRow l = some r) :
    ∀ x ∈ l, x.time ≤ r.time := by
  cases l with
  | nil => simp [maxTimeRow] at h
  | cons c l =>
    simp only [maxTimeRow, Option.some_inj] at h
    exact fun x hx => h ▸ foldl_laterOf_le l c x hx

theorem maxTimeRow_ne_nil {l : List AnnRow} (h : l ≠ []) :
    ∃ r, maxTimeRow l = some r := by
  cases l with
  | nil => exact absurd rfl h
  | cons c l => exact ⟨_, rfl⟩

theorem foldl_laterOf_append_gt (l : List AnnRow) (a r : AnnRow)
    (ha : a.time < r.time) (hl : ∀ x ∈ l, x.time < r.time) :
    (l ++ [r]).foldl laterOf a = r := by
  induction l generalizing a with
  | nil => simp [laterOf, le_of_lt ha]
  | cons c l ih =>
    simp only [List.cons_append, List.foldl_cons]
    have hlater : laterOf a c = c ∨ laterOf a c = a := by
      unfold laterOf; split <;> simp
    have hc : c.time < r.time := hl c (List.mem_cons_self _ _)
    have : (laterOf a c).time < r.time := by rcases hlater with h | h <;> rw [h] <;> assumption
    exact ih (laterOf a c) this (fun x hx => hl x (List.mem_cons_of_mem _ hx))

theorem maxTimeRow_append_gt {l : List AnnRow} {r : AnnRow}
    (h : ∀ x ∈ l, x.time < r.time) :
    maxTimeRow (l ++ [r]) = some r := by
  cases l with
  | nil => simp [maxTimeRow, laterOf]
  | cons c l =>
    simp only [List.cons_append, maxTimeRow, Option.some_inj]
    exact foldl_laterOf_append_gt l c r (h c (List.mem_cons_self _ _))
      (fun x hx => h x (List.mem_cons_of_mem _ hx))

/-! ## Helper lemmas: appending annotations -/

theorem mem_rowsFor {s : SchemesState} {scheme : String} {kinds : List String}
    {e : String} {r : AnnRow} (h : r ∈ rowsFor s scheme kinds e) :
    r ∈ s.rows := by
  have h1 := List.mem_filter.mp h
  exact (List.mem_filter.mp h1.1).1

theorem rowsFor_appendRow (s : SchemesState) (act usr el sch : String)
    (tg : Option String) (scheme : String) (kinds : List String) (e : String) :
    rowsFor (appendRow s act usr el sch tg) scheme kinds e =
      rowsFor s scheme kinds e ++
        (if (sch == scheme && kinds.contains act && el == e) = true
         then [⟨act, usr, s.project_slug, el, sch, tg, s.clock⟩] else []) := by
  simp only [rowsFor, relevantRows, appendRow, List.filter_append]
  congr 1
  simp only [List.filter, matchesQuery]
  split <;> rename_i hcond <;> split <;> rename_i hcond2 <;> simp_all

theorem WF_appendRow {s : SchemesState} (hWF : s.WF) (act usr el sch : String)
    (tg : Option String) : (appendRow s act usr el sch tg).WF := by
  intro r hr
  simp only [appendRow, List.mem_append, List.mem_singleton] at hr
  rcases hr with h | h
  · exact Nat.lt_succ_of_lt (hWF r h)
  · subst h; exact Nat.lt_succ_self _

theorem latestFor_appendRow {s : SchemesState} (hWF : s.WF) (act usr el sch : String)
    (tg : Option String) (scheme : String) (kinds : List String) (e : String) :
    latestFor (appendRow s act usr el sch tg) scheme kinds e =
      if (sch == scheme && kinds.contains act && el == e) = true
      then some ⟨act, usr, s.project_slug, el, sch, tg, s.clock⟩
      else latestFor s scheme kinds e := by
  unfold latestFor
  rw [rowsFor_appendRow]
  split
  · exact maxTimeRow_append_gt (fun x hx => hWF x (mem_rowsFor hx))
  · simp

theorem push_tag_schemes (s : SchemesState) (el : String) (tg : Option String)
    (scheme u a : String) :
    (push_tag s el tg scheme u a).1.schemes = s.schemes ∧
      (push_tag s el tg scheme u a).1.project_slug = s.project_slug := by
  unfold push_tag
  rcases h : s.schemes.lookup scheme with _ | labels
  · simp
  · cases tg with
    | none => simp [appendRow]
    | some t =>
      simp only []
      split <;> simp [appendRow]

theorem push_tag_WF {s : SchemesState} (hWF : s.WF) (el : String) (tg : Option String)
    (scheme u a : String) : (push_tag s el tg scheme u a).1.WF := by
  unfold push_tag
  rcases h : s.schemes.lookup scheme with _ | labels
  · exact hWF
  · cases tg with
    | none => exact WF_appendRow hWF _ _ _ _ _
    | some t =>
      simp only []
      split
      · exact WF_appendRow hWF _ _ _ _ _
      · exact hWF

theorem push_tag_valid {s : SchemesState} {scheme : String} {labels : List String}
    (hsch : s.schemes.lookup scheme = some labels) {B : String}
    (hB : labels.contains B = true) (el u a : String) :
    push_tag s el (some B) scheme u a = (appendRow s a u el scheme (some B), true) := by
  unfold push_tag
  rw [hsch]
  simp only []
  rw [if_pos hB]

theorem push_tag_currentLabel {s : SchemesState} (hWF : s.WF) {scheme : String}
    {labels : List String} (hsch : s.schemes.lookup scheme = some labels)
    {B : String} (hB : labels.contains B = true) (el u : String) (e : String) :
    currentLabelRec (push_tag s el (some B) scheme u "add").1 scheme e =
      if el = e then some (some B) else currentLabelRec s scheme e := by
  rw [push_tag_valid hsch hB]
  unfold currentLabelRec
  rw [latestFor_appendRow hWF]
  have hc : ((scheme == scheme && ["add"].contains "add" && el == e) = true) ↔ el = e := by
    simp
  by_cases h : el = e
  · rw [if_pos (hc.mpr h), if_pos h]; rfl
  · rw [if_neg (fun hh => h (hc.mp hh)), if_neg h]

/-! ## Helper lemmas: folding pushes over an element list -/

theorem foldl_push_schemes (scheme u B : String) (L : List String) (s : SchemesState) :
    (L.foldl (fun st e => (push_tag st e (some B) scheme u "add").1) s).schemes =
        s.schemes ∧
      (L.foldl (fun st e => (push_tag st e (some B) scheme u "add").1) s).project_slug =
        s.project_slug := by
  induction L generalizing s with
  | nil => exact ⟨rfl, rfl⟩
  | cons x L ih =>
    simp only [List.foldl_cons]
    have h1 := push_tag_schemes s x (some B) scheme u "add"
    have h2 := ih (push_tag s x (some B) scheme u "add").1
    exact ⟨h2.1.trans h1.1, h2.2.trans h1.2⟩

theorem foldl_push_WF {s : SchemesState} (hWF : s.WF) (scheme u B : String)
    (L : List String) :
    (L.foldl (fun st e => (push_tag st e (some B) scheme u "add").1) s).WF := by
  induction L generalizing s with
  | nil => exact hWF
  | cons x L ih =>
    simp only [List.foldl_cons]
    exact ih (push_tag_WF hWF x (some B) scheme u "add")

theorem foldl_push_currentLabel {s : SchemesState} (hWF : s.WF) {scheme : String}
    {labels : List String} (hsch : s.schemes.lookup scheme = some labels)
    {B : String} (hB : labels.contains B = true) (u : String) (L : List String)
    (e : String) :
    currentLabelRec (L.foldl (fun st e => (push_tag st e (some B) scheme u "add").1) s)
        scheme e =
      if e ∈ L then some (some B) else currentLabelRec s scheme e := by
  induction L generalizing s with
  | nil => simp
  | cons x L ih =>
    simp only [List.foldl_cons]
    have hWF2 := push_tag_WF hWF x (some B) scheme u "add"
    have hsch2 : (push_tag s x (some B) scheme u "add").1.schemes.lookup scheme =
        some labels := by
      rw [(push_tag_schemes s x (some B) scheme u "add").1]; exact hsch
    rw [ih hWF2 hsch2]
    rw [push_tag_currentLabel hWF hsch hB x u e]
    by_cases hL : e ∈ L
    · rw [if_pos hL, if_pos (List.mem_cons_of_mem _ hL)]
    · rw [if_neg hL]
      by_cases hx : x = e
      · rw [if_pos hx, if_pos (by exact hx ▸ List.mem_cons_self x L)]
      · rw [if_neg hx, if_neg (by
          intro hmem
          rcases List.mem_cons.mp hmem with h | h
          · exact hx h.symm
          · exact hL h)]

theorem push_tag_invalid {s : SchemesState} {scheme B : String}
    (h : s.schemes.lookup scheme = none ∨
      ∃ labels, s.schemes.lookup scheme = some labels ∧ labels.contains B = false)
    (el u a : String) :
    (push_tag s el (some B) scheme u a).1 = s := by
  unfold push_tag
  rcases h with h | ⟨labels, h, hB⟩
  · rw [h]
  · rw [h]
    simp only []
    rw [if_neg (fun hc => by rw [hB] at hc; exact Bool.false_ne_true hc)]

theorem foldl_push_invalid {s : SchemesState} {scheme B : String}
    (h : s.schemes.lookup scheme = none ∨
      ∃ labels, s.schemes.lookup scheme = some labels ∧ labels.contains B = false)
    (u : String) (L : List String) :
    L.foldl (fun st e => (push_tag st e (some B) scheme u "add").1) s = s := by
  induction L with
  | nil => rfl
  | cons x L ih =>
    simp only [List.foldl_cons]
    rw [push_tag_invalid h x u "add"]
    exact ih

/-! ## Helper lemmas: membership in the latest-per-element table -/

theorem latestFor_isSome_of_mem {s : SchemesState} {scheme : String}
    {kinds : List String} {e : String} {r : AnnRow}
    (h : r ∈ rowsFor s scheme kinds e) : ∃ x, latestFor s scheme kinds e = some x := by
  unfold latestFor
  exact maxTimeRow_ne_nil (List.ne_nil_of_mem h)

theorem elementsOf_of_latestFor {s : SchemesState} {scheme : String}
    {kinds : List String} {e : String} {r : AnnRow}
    (h : latestFor s scheme kinds e = some r) : e ∈ elementsOf s scheme kinds := by
  have hmem : r ∈ rowsFor s scheme kinds e := maxTimeRow_mem h
  have h1 := List.mem_filter.mp hmem
  have h2 : r.element_id = e := by simpa using h1.2
  unfold elementsOf
  rw [List.mem_dedup]
  exact h2 ▸ List.mem_map_of_mem _ h1.1

theorem mem_get_scheme_data {s : SchemesState} {scheme : String} {kinds : List String}
    {e : String} {tg : Option String} {u : String} {t : Nat} :
    (e, tg, u, t) ∈ get_scheme_data s scheme kinds ↔
      ∃ r, latestFor s scheme kinds e = some r ∧ r.tag = tg ∧ r.user = u ∧ r.time = t := by
  unfold get_scheme_data
  rw [List.mem_filterMap]
  constructor
  · rintro ⟨e', _, hmap⟩
    rcases hlat : latestFor s scheme kinds e' with _ | r
    · rw [hlat] at hmap; simp at hmap
    · rw [hlat] at hmap
      simp only [Option.map_some', Option.some_inj] at hmap
      have h1 : e' = e ∧ r.tag = tg ∧ r.user = u ∧ r.time = t := by
        simpa [Prod.ext_iff] using hmap
      exact ⟨r, h1.1 ▸ hlat, h1.2.1, h1.2.2.1, h1.2.2.2⟩
  · rintro ⟨r, hlat, htg, hu, ht⟩
    exact ⟨e, elementsOf_of_latestFor hlat, by rw [hlat]; simp [htg, hu, ht]⟩

theorem mem_to_recode {s : SchemesState} {scheme A : String} {e : String} :
    e ∈ to_recode s scheme A ↔ currentLabelRec s scheme e = some (some A) := by
  unfold to_recode
  rw [List.mem_filterMap]
  constructor
  · rintro ⟨⟨e', tg, u, t⟩, hmem, hcond⟩
    have : tg = some A ∧ e' = e := by
      by_cases h : tg = some A
      · rw [if_pos (by simpa using h)] at hcond
        exact ⟨h, by simpa using hcond⟩
      · rw [if_neg (by simpa using h)] at hcond
        exact absurd hcond (by simp)
    obtain ⟨htg, he⟩ := this
    subst htg; subst he
    obtain ⟨r, hlat, hrtag, _, _⟩ := mem_get_scheme_data.mp hmem
    unfold currentLabelRec
    rw [hlat]
    simp [hrtag]
  · intro h
    unfold currentLabelRec at h
    rcases hlat : latestFor s scheme ["add"] e with _ | r
    · rw [hlat] at h; simp at h
    · rw [hlat] at h
      simp only [Option.map_some', Option.some_inj] at h
      refine ⟨(e, r.tag, r.user, r.time), mem_get_scheme_data.mpr ⟨r, hlat, rfl, rfl, rfl⟩, ?_⟩
      simp [h]

theorem convert_tags_invalid {s : SchemesState} {scheme B : String}
    (h : s.schemes.lookup scheme = none ∨
      ∃ labels, s.schemes.lookup scheme = some labels ∧ labels.contains B = false)
    (A u : String) : convert_tags s A B scheme u = s := by
  unfold convert_tags
  exact foldl_push_invalid h u _

/-- C1 (amended): every row `(e, tag, user, t)` that `get_scheme_data`
returns is an actual annotation row of element `e` whose timestamp `t`
is maximal among all rows of `(project, element, scheme)` across every
user and the requested action kinds — the group is keyed by the
element id only, not additionally by user. -/
theorem get_scheme_data_latest (s : SchemesState) (scheme : String)
    (kinds : List String) (e : String) (tg : Option String) (u : String) (t : Nat)
    (h : (e, tg, u, t) ∈ get_scheme_data s scheme kinds) :
    ∃ r ∈ rowsFor s scheme kinds e,
      r.tag = tg ∧ r.user = u ∧ r.time = t ∧
        ∀ x ∈ rowsFor s scheme kinds e, x.time ≤ t := by
  obtain ⟨r, hlat, htg, hu, ht⟩ := mem_get_scheme_data.mp h
  exact ⟨r, maxTimeRow_mem hlat, htg, hu, ht,
    fun x hx => ht ▸ maxTimeRow_le hlat x hx⟩

/-- C1, witness for the amended theorem: on the two-user history the
returned row for `e1` is `u2`'s record with the globally maximal
timestamp. -/
theorem get_scheme_data_latest_witness :
    ∃ r ∈ rowsFor sTwoUsers "default" ["add"] "e1",
      r.tag = some "b" ∧ r.user = "u2" ∧ r.time = 1 ∧
        ∀ x ∈ rowsFor sTwoUsers "default" ["add"] "e1", x.time ≤ 1 :=
  get_scheme_data_latest sTwoUsers "default" ["add"] "e1" (some "b") "u2" 1 (by decide)

/-- C1, counterexample to the claim as stated: user `u1` has records
for element `e1` (its per-(project, element, scheme, user) maximum is
the tag-`a` record), yet `get_scheme_data` returns for `e1` only
`u2`'s later record — the argmax is taken over all users of the
element, not per (element, user) key. -/
theorem get_scheme_data_not_per_user :
    perUserRows sTwoUsers "default" ["add"] "e1" "u1" ≠ [] ∧
    perUserLatest sTwoUsers "default" ["add"] "e1" "u1" =
      some ⟨"add", "u1", "proj", "e1", "default", some "a", 0⟩ ∧
    get_scheme_data sTwoUsers "default" ["add"] = [("e1", some "b", "u2", 1)] := by
  decide

/-- C8: `convert_label` is idempotent on the current labelling — after
converting `A` to `B` once, converting again leaves every element's
current label unchanged (after the first pass no element's latest
annotation is `A` any more, unless `A = B` in which case re-pushing `B`
changes nothing). -/
theorem convert_label_idempotent (s : SchemesState) (hWF : s.WF)
    (A B scheme u e : String) :
    currentLabelRec (convert_tags (convert_tags s A B scheme u) A B scheme u)
        scheme e =
      currentLabelRec (convert_tags s A B scheme u) scheme e := by
  rcases hsch : s.schemes.lookup scheme with _ | labels
  · have h1 : convert_tags s A B scheme u = s := convert_tags_invalid (Or.inl hsch) A u
    rw [h1, h1]
  · rcases hB : labels.contains B with _ | _
    · have h1 : convert_tags s A B scheme u = s :=
        convert_tags_invalid (Or.inr ⟨labels, hsch, hB⟩) A u
      rw [h1, h1]
    · have hWF1 : (convert_tags s A B scheme u).WF := by
        unfold convert_tags; exact foldl_push_WF hWF scheme u B _
      have hschemes1 : (convert_tags s A B scheme u).schemes = s.schemes := by
        unfold convert_tags; exact (foldl_push_schemes scheme u B _ s).1
      have hsch1 : (convert_tags s A B scheme u).schemes.lookup scheme = some labels := by
        rw [hschemes1]; exact hsch
      have H1 : ∀ x, currentLabelRec (convert_tags s A B scheme u) scheme x =
          if x ∈ to_recode s scheme A then some (some B)
          else currentLabelRec s scheme x := by
        intro x
        unfold convert_tags
        exact foldl_push_currentLabel hWF hsch hB u _ x
      have H2 : currentLabelRec
            (convert_tags (convert_tags s A B scheme u) A B scheme u) scheme e =
          if e ∈ to_recode (convert_tags s A B scheme u) scheme A then some (some B)
          else currentLabelRec (convert_tags s A B scheme u) scheme e := by
        conv_lhs => unfold convert_tags
        exact foldl_push_currentLabel hWF1 hsch1 hB u _ e
      rw [H2]
      by_cases hL' : e ∈ to_recode (convert_tags s A B scheme u) scheme A
      · rw [if_pos hL']
        have hcur1 : currentLabelRec (convert_tags s A B scheme u) scheme e =
            some (some A) := mem_to_recode.mp hL'
        by_cases hL : e ∈ to_recode s scheme A
        · have hBe := H1 e
          rw [if_pos hL] at hBe
          rw [hcur1]
          exact hBe.symm.trans hcur1
        · have hBe := H1 e
          rw [if_neg hL] at hBe
          rw [hBe] at hcur1
          exact absurd (mem_to_recode.mpr hcur1) hL
      · rw [if_neg hL']

/-- C8, witness: on the two-user history, converting `b` to `a` twice
leaves `e1`'s current label equal to what a single conversion gives. -/
theorem convert_label_idempotent_witness :
    sTwoUsers.WF ∧
      currentLabelRec
          (convert_tags (convert_tags sTwoUsers "b" "a" "default" "u1")
            "b" "a" "default" "u1") "default" "e1" =
        currentLabelRec (convert_tags sTwoUsers "b" "a" "default" "u1")
          "default" "e1" :=
  ⟨by decide, convert_label_idempotent sTwoUsers (by decide) "b" "a" "default" "u1" "e1"⟩

/-! ## Queue lemmas and claims C4 -/

theorem lookup_filter_ne (l : List (String × QTask)) (uid : String) :
    (l.filter (fun p => !(p.1 == uid))).lookup uid = none := by
  induction l with
  | nil => rfl
  | cons p l ih =>
    by_cases hp : p.1 = uid
    · simp only [List.filter, hp, beq_self_eq_true, Bool.not_true]
      exact ih
    · have h1 : (p.1 == uid) = false := by simp [hp]
      have h2 : (uid == p.1) = false := by simp [Ne.symm hp]
      simp only [List.filter, h1, Bool.not_false]
      simp only [List.lookup, h2]
      exact ih

theorem lookup_setEvent (evs : List (String × Bool)) (uid : String) :
    (setEvent evs uid).lookup uid = (evs.lookup uid).map (fun _ => true) := by
  induction evs with
  | nil => rfl
  | cons p evs ih =>
    by_cases hp : p.1 = uid
    · have h1 : (p.1 == uid) = true := by simp [hp]
      have h2 : (uid == p.1) = true := by simp [hp]
      simp only [setEvent, List.map_cons, h1, if_pos rfl]
      simp only [List.lookup, h2, Option.map_some']
    · have h1 : (p.1 == uid) = false := by simp [hp]
      have h2 : (uid == p.1) = false := by simp [Ne.symm hp]
      simp only [setEvent, List.map_cons, h1, Bool.false_eq_true, if_false]
      simp only [List.lookup, h2]
      exact ih

theorem queue_state_lookup_none {q : QueueSt} {uid : String}
    (h : q.current.lookup uid = none) : (queue_state q).lookup uid = none := by
  unfold queue_state
  obtain ⟨l, hl⟩ : ∃ l, q.current = l := ⟨q.current, rfl⟩
  rw [hl] at h ⊢
  clear hl
  induction l with
  | nil => rfl
  | cons p l ih =>
    by_cases hp : uid = p.1
    · exfalso
      have h2 : (uid == p.1) = true := by simp [hp]
      simp [List.lookup, h2] at h
    · have h2 : (uid == p.1) = false := by simp [hp]
      simp only [List.lookup, h2] at h
      simp only [List.map_cons]
      rcases hfut : p.2.fut with _ | exc <;>
        simp only [hfut] <;> simp only [List.lookup, h2] <;> exact ih h

/-- C4 (amended): `kill` on a known task id sets the task's cancel
event but also removes the entry from the stack, so the queue's
`state` no longer reports the task at all; and every state `state`
ever reports is `"running"` or `"done"` — there is no `cancelled`
(nor `pending`, nor `failed`) state. -/
theorem queue_kill_spec :
    (∀ (q : QueueSt) (uid : String), (q.current.lookup uid).isSome = true →
      (queue_kill q uid).2 = true ∧
        (queue_kill q uid).1.current.lookup uid = none ∧
        (queue_kill q uid).1.events.lookup uid =
          (q.events.lookup uid).map (fun _ => true) ∧
        (queue_state (queue_kill q uid).1).lookup uid = none) ∧
    ∀ (q : QueueSt), ∀ p ∈ queue_state q, p.2.1 = "running" ∨ p.2.1 = "done" := by
  constructor
  · intro q uid h
    have hn : (q.current.lookup uid).isNone = false := by
      rcases hx : q.current.lookup uid with _ | v
      · rw [hx] at h; simp at h
      · rfl
    unfold queue_kill
    rw [hn]
    simp only [Bool.false_eq_true, if_false]
    refine ⟨by simp, lookup_filter_ne q.current uid, lookup_setEvent q.events uid, ?_⟩
    exact queue_state_lookup_none (lookup_filter_ne q.current uid)
  · intro q p hp
    unfold queue_state at hp
    obtain ⟨x, _, hx⟩ := List.mem_map.mp hp
    rcases hfut : x.2.fut with _ | exc <;> simp only [hfut] at hx <;> rw [← hx]
    · left; rfl
    · right; rfl

/-- C4, witness for the amended theorem: killing the single running
task of a live queue. -/
theorem queue_kill_spec_witness :
    (queue_kill qOne "t1").2 = true ∧
      (queue_kill qOne "t1").1.current.lookup "t1" = none ∧
      (queue_kill qOne "t1").1.events.lookup "t1" =
        (qOne.events.lookup "t1").map (fun _ => true) ∧
      (queue_state (queue_kill qOne "t1").1).lookup "t1" = none :=
  queue_kill_spec.1 qOne "t1" (by decide)

/-- C4, counterexample to the claim as stated: the task is reported
`"running"` before the kill; `kill` succeeds and sets the cancel
event, but afterwards `state` reports nothing for the task — in
particular never a `cancelled` state, which does not exist in the
code. -/
theorem queue_kill_not_cancelled :
    queue_state qOne = [("t1", "running", none)] ∧
      (queue_kill qOne "t1").2 = true ∧
      (queue_kill qOne "t1").1.events.lookup "t1" = some true ∧
      queue_state (queue_kill qOne "t1").1 = [] := by
  decide

/-! ## Partitioning lemmas and claim C5 -/

/-- C5: after `create_project` partitions the corpus, every test row
has a missing label (the test set is drawn from the unlabelled pool
only) and no id occurs both in the train and in the test partition
(the drawn rows are dropped from the pool before the train set is
built); no valid partition is created by this code path. -/
theorem create_project_partitions
    (tsel : List DataRow → List DataRow) (samp : Nat → List DataRow → List DataRow)
    (htsel : ∀ l r, r ∈ tsel l → r ∈ l) (hsamp : ∀ n l r, r ∈ samp n l → r ∈ l)
    (content0 : List DataRow) (nTest nTrain : Nat) (tr te : List DataRow)
    (hok : create_project tsel samp content0 nTest nTrain = .ok (tr, te)) :
    (∀ r ∈ te, r.label = none) ∧ ∀ x ∈ tr, ∀ y ∈ te, x.id ≠ y.id := by
  unfold create_project at hok
  split at hok
  · exact absurd hok (by simp)
  · split at hok
    · exact absurd hok (by simp)
    · rename_i testset heq
      simp only [Except.ok.injEq, Prod.mk.injEq] at hok
      obtain ⟨htr, hte⟩ := hok
      subst hte
      have hteUnl : ∀ r ∈ testset, r.label = none := by
        intro r hr
        unfold cpChosenTest at heq
        by_cases hnt : nTest ≠ 0
        · rw [if_pos hnt] at heq
          split at heq
          · exact absurd heq (by simp)
          · simp only [Option.some_inj] at heq
            rw [← heq] at hr
            have h1 := htsel _ _ hr
            have h2 := (List.mem_filter.mp h1).2
            simpa [Option.isNone_iff_eq_none] using h2
        · rw [if_neg hnt] at heq
          simp only [Option.some_inj] at heq
          rw [← heq] at hr
          simp at hr
      refine ⟨hteUnl, ?_⟩
      intro x hx y hy
      have hxc2 : x ∈ cpRemaining content0 testset := by
        rw [← htr] at hx
        unfold cpTrain at hx
        split at hx
        · exact (List.mem_filter.mp (hsamp _ _ _ hx)).1
        · rcases List.mem_append.mp hx with h | h
          · exact (List.mem_filter.mp h).1
          · exact (List.mem_filter.mp (hsamp _ _ _ h)).1
      have hxid : ((testset.map (·.id)).contains x.id) = false := by
        unfold cpRemaining at hxc2
        have h2 := (List.mem_filter.mp hxc2).2
        rw [Bool.not_eq_true'] at h2
        exact h2
      intro hxy
      have hmem : x.id ∈ testset.map (·.id) := by
        rw [hxy]; exact List.mem_map_of_mem _ hy
      have hc : ((testset.map (·.id)).contains x.id) = true :=
        List.elem_eq_true_of_mem hmem
      rw [hxid] at hc
      exact Bool.false_ne_true hc

/-- C5, witness: a four-row corpus, one test row drawn from the
unlabelled pool, one train row. -/
theorem create_project_partitions_witness :
    (∀ r ∈ [DataRow.mk "2" none], r.label = none) ∧
      ∀ x ∈ [DataRow.mk "1" (some "x"), DataRow.mk "3" (some "y")],
        ∀ y ∈ [DataRow.mk "2" none], x.id ≠ y.id :=
  create_project_partitions (fun l => l.take 1) takeRows
    (fun l r h => List.mem_of_mem_take h) (fun n l r h => List.mem_of_mem_take h)
    corpus4 1 2 [⟨"1", some "x"⟩, ⟨"3", some "y"⟩] [⟨"2", none⟩] rfl

/-! ## Claim C3: feature shape -/

/-- C3: `features_add` succeeds exactly when the name is fresh and the
content row count equals the store's row count `n`; a fresh name with a
wrong row count fails with the shape error, a duplicate name fails
with the already-exists error; and the store built by
`create_features_file` has `n` equal to the total size of the train,
valid and test partitions. -/
theorem features_add_shape :
    (∀ (st : FeaturesSt) (name : String) (content : List (List Rat)),
      (∃ st', features_add st name content = .ok st') ↔
        (st.names.contains name = false ∧ content.length = st.n)) ∧
    (∀ (st : FeaturesSt) (name : String) (content : List (List Rat)),
      st.names.contains name = true →
        features_add st name content = .error .alreadyExists) ∧
    (∀ (st : FeaturesSt) (name : String) (content : List (List Rat)),
      st.names.contains name = false → content.length ≠ st.n →
        features_add st name content = .error .shapeErr) ∧
    (∀ (train : List String) (valid test : Option (List String)),
      (create_features_file train valid test).n =
        train.length + (valid.map List.length).getD 0 + (test.map List.length).getD 0) := by
  refine ⟨?_, ?_, ?_, fun _ _ _ => rfl⟩
  · intro st name content
    unfold features_add
    constructor
    · rintro ⟨st', h⟩
      split at h
      · exact absurd h (by simp)
      · split at h
        · exact absurd h (by simp)
        · rename_i h1 h2
          exact ⟨by rwa [Bool.not_eq_true] at h1, by omega⟩
    · rintro ⟨h1, h2⟩
      rw [if_neg (by intro hc; rw [h1] at hc; exact Bool.false_ne_true hc),
        if_neg (by omega)]
      exact ⟨_, rfl⟩
  · intro st name content h
    unfold features_add
    rw [if_pos h]
  · intro st name content h1 h2
    unfold features_add
    rw [if_neg (by intro hc; rw [h1] at hc; exact Bool.false_ne_true hc), if_pos h2]

/-- C3, witness: a store over a 2-row train and a 1-row test partition
accepts a 3-row feature under a fresh name. -/
theorem features_add_shape_witness :
    ∃ st', features_add (create_features_file ["a", "b"] none (some ["c"]))
      "f1" [[1], [2], [3]] = .ok st' :=
  (features_add_shape.1 _ _ _).mpr (by decide)

/-! ## Claim C6: one feature computation per user -/

/-- C6: a user with any pending computation in the computing list gets
the conflict error from `Features.compute` and the service state —
in particular the submitted-task list — is returned unchanged, no
matter the kind or parameters of the second submission. -/
theorem features_compute_conflict (fs : FeatService)
    (matcher : String → String → Bool)
    (rawColumn : String → Option (List (Option String)))
    (toNum : String → Option Rat) (texts : List (String × String))
    (kind user : String) (params : List (String × String))
    (h : current_user_processes fs user ≠ []) :
    features_compute fs matcher rawColumn toNum texts kind user params =
      (fs, .error .conflict) := by
  unfold features_compute
  rw [if_pos (List.length_pos.mpr h)]

/-- C6, witness: a second sbert submission by the user owning the one
pending computation fails with the conflict error and enqueues
nothing. -/
theorem features_compute_conflict_witness :
    features_compute fsBusy (fun _ _ => false) (fun _ => none) (fun _ => none)
      [] "sbert" "u1" [] = (fsBusy, .error .conflict) :=
  features_compute_conflict fsBusy _ _ _ _ "sbert" "u1" [] (by decide)

/-! ## Claim C9: prompt token validation -/

/-- C9: the generation submission succeeds exactly when every
`[[NAME]]` token of the prompt has `NAME = TEXT` or a registered
context column; otherwise it fails with a validation error — and the
error is witnessed by an offending token — before the generation task
is started. -/
theorem postgenerate_validates (cols : List String) (prompt : String) :
    ((∃ u, postgenerate cols prompt = .ok u) ↔
      ∀ t ∈ findPromptTags prompt, t = "TEXT" ∨ cols.contains t = true) ∧
    (∀ msg, postgenerate cols prompt = .error msg →
      ∃ t ∈ findPromptTags prompt, t ≠ "TEXT" ∧ cols.contains t = false) := by
  rcases hf : (findPromptTags prompt).find?
      (fun t => !(t == "TEXT" || cols.contains t)) with _ | t
  · constructor
    · constructor
      · intro _ t ht
        have h2 := List.find?_eq_none.mp hf t ht
        have h3 : (t == "TEXT" || cols.contains t) = true := by
          rcases hb : (t == "TEXT" || cols.contains t) with _ | _
          · rw [hb] at h2; simp at h2
          · rfl
        rcases Bool.or_eq_true .. |>.mp h3 with h | h
        · exact Or.inl (by simpa using h)
        · exact Or.inr h
      · intro _
        refine ⟨(), ?_⟩
        unfold postgenerate
        rw [hf]
    · intro msg hmsg
      unfold postgenerate at hmsg
      rw [hf] at hmsg
      exact absurd hmsg (by simp)
  · have hpt := List.find?_some hf
    have hmem := List.mem_of_find?_eq_some hf
    rw [Bool.not_eq_true', Bool.or_eq_false_iff] at hpt
    constructor
    · constructor
      · rintro ⟨u, hu⟩
        unfold postgenerate at hu
        rw [hf] at hu
        exact absurd hu (by simp)
      · intro hall
        exfalso
        rcases hall t hmem with h | h
        · rw [h] at hpt
          simp at hpt
        · rw [hpt.2] at h
          exact Bool.false_ne_true h

    · intro msg _
      exact ⟨t, hmem, by simpa using hpt.1, hpt.2⟩

/-- C9, witness: a prompt whose two tokens are `TEXT` and a registered
context column is accepted. -/
theorem postgenerate_validates_witness :
    ∃ u, postgenerate ["ctx"] "Say [[TEXT]] with [[ctx]]" = .ok u :=
  (postgenerate_validates ["ctx"] "Say [[TEXT]] with [[ctx]]").1.mpr (by decide)

/-! ## Claim C10: model status -/

theorem setFirstTrained_mem {name project : String} :
    ∀ (l : List ModelRow), ∀ m' ∈ setFirstTrained name project l,
      m' ∈ l ∨ m'.status = "trained" := by
  intro l
  induction l with
  | nil => intro m' h; exact absurd h (by simp [setFirstTrained])
  | cons m ms ih =>
    intro m' h
    unfold setFirstTrained at h
    split at h
    · rcases List.mem_cons.mp h with h1 | h1
      · right; rw [h1]
      · left; exact List.mem_cons_of_mem _ h1
    · rcases List.mem_cons.mp h with h1 | h1
      · left; rw [h1]; exact List.mem_cons_self _ _
      · rcases ih m' h1 with h2 | h2
        · left; exact List.mem_cons_of_mem _ h2
        · right; exact h2

theorem setFirstTrained_finds {name project : String} :
    ∀ (l : List ModelRow),
      (l.find? (fun m => m.name == name && m.project == project)).isSome = true →
      ∃ m' ∈ setFirstTrained name project l,
        m'.name = name ∧ m'.project = project ∧ m'.status = "trained" := by
  intro l
  induction l with
  | nil => intro h; simp [List.find?] at h
  | cons m ms ih =>
    intro h
    rcases hm : (m.name == name && m.project == project) with _ | _
    · unfold setFirstTrained
      rw [if_neg (by rw [hm]; exact Bool.false_ne_true)]
      have h2 : ((ms.find? (fun m => m.name == name && m.project == project)).isSome
          = true) := by
        rw [List.find?] at h
        rw [hm] at h
        exact h
      obtain ⟨m', hmem, hp⟩ := ih h2
      exact ⟨m', List.mem_cons_of_mem _ hmem, hp⟩
    · unfold setFirstTrained
      rw [if_pos hm]
      obtain ⟨h1, h2⟩ := Bool.and_eq_true .. |>.mp hm
      exact ⟨_, List.mem_cons_self _ _, by simpa using h1, by simpa using h2, rfl⟩

/-- C10: `change_model_status` ignores its status argument — the
stored status after a successful call is the literal `"trained"` on
the first matching row and every other row is unchanged; the result is
the same whatever status value the caller passes. -/
theorem change_model_status_writes_trained :
    (∀ (models : List ModelRow) (project name s1 s2 : String),
      change_model_status models project name s1 =
        change_model_status models project name s2) ∧
    (∀ (models : List ModelRow) (project name st : String) (ms' : List ModelRow),
      change_model_status models project name st = .ok ms' →
        (∀ m' ∈ ms', m' ∈ models ∨ m'.status = "trained") ∧
        ∃ m' ∈ ms', m'.name = name ∧ m'.project = project ∧ m'.status = "trained") := by
  constructor
  · intro models project name s1 s2
    rfl
  · intro models project name st ms' h
    unfold change_model_status at h
    split at h
    · exact absurd h (by simp)
    · rename_i hfind
      simp only [Except.ok.injEq] at h
      subst h
      refine ⟨setFirstTrained_mem models, setFirstTrained_finds models ?_⟩
      rcases hx : (models.find? (fun m => m.name == name && m.project == project))
        with _ | v
      · rw [hx] at hfind
        exact absurd rfl hfind
      · rw [hx]
        rfl

/-- C10, witness: setting any status on the queued model stores
`"trained"`. -/
theorem change_model_status_writes_trained_witness :
    (∀ m' ∈ [ModelRow.mk "proj" "m1" "u1" "default" "trained"],
      m' ∈ modelsOne ∨ m'.status = "trained") ∧
    ∃ m' ∈ [ModelRow.mk "proj" "m1" "u1" "default" "trained"],
      m'.name = "m1" ∧ m'.project = "proj" ∧ m'.status = "trained" :=
  change_model_status_writes_trained.2 modelsOne "proj" "m1" "whatever"
    [ModelRow.mk "proj" "m1" "u1" "default" "trained"] rfl

/-! ## Argmax lemmas for the selection policy -/

theorem optLt_irrefl (x : Option Rat) : optLt x x = false := by
  rcases x with _ | a
  · rfl
  · simp [optLt]

theorem optLt_trans {x y z : Option Rat} (h1 : optLt x y = true)
    (h2 : optLt y z = true) : optLt x z = true := by
  rcases x with _ | a <;> rcases y with _ | b <;> rcases z with _ | c <;>
    simp [optLt] at * <;> linarith

theorem optLt_of_lt_of_not_lt {x y z : Option Rat} (h1 : optLt x y = true)
    (h2 : optLt z y = false) : optLt x z = true := by
  rcases x with _ | a <;> rcases y with _ | b <;> rcases z with _ | c <;>
    simp [optLt] at * <;> linarith

theorem argmaxStep_none (key : ContentRow → Option Rat) (c : ContentRow) :
    argmaxStep key none c = some c := rfl

theorem argmaxStep_some (key : ContentRow → Option Rat) (a c : ContentRow) :
    argmaxStep key (some a) c =
      if optLt (key a) (key c) then some c else some a := rfl

theorem argmaxStep_foldl_some (key : ContentRow → Option Rat) :
    ∀ (l : List ContentRow) (a : ContentRow),
      ∃ r, l.foldl (argmaxStep key) (some a) = some r := by
  intro l
  induction l with
  | nil => exact fun a => ⟨a, rfl⟩
  | cons c l ih =>
    intro a
    simp only [List.foldl_cons, argmaxStep_some]
    rcases hac : optLt (key a) (key c) with _ | _
    · rw [if_neg (by simp [hac])]
      exact ih a
    · rw [if_pos (by simp [hac])]
      exact ih c

theorem argmaxStep_foldl_spec (key : ContentRow → Option Rat) :
    ∀ (l : List ContentRow) (a r : ContentRow),
      l.foldl (argmaxStep key) (some a) = some r →
      (r = a ∨ r ∈ l) ∧ optLt (key r) (key a) = false ∧
        ∀ c ∈ l, optLt (key r) (key c) = false := by
  intro l
  induction l with
  | nil =>
    intro a r h
    simp only [List.foldl_nil, Option.some_inj] at h
    subst h
    exact ⟨Or.inl rfl, optLt_irrefl _, by simp⟩
  | cons c l ih =>
    intro a r h
    simp only [List.foldl_cons, argmaxStep_some] at h
    rcases hac : optLt (key a) (key c) with _ | _
    · rw [if_neg (by simp [hac])] at h
      obtain ⟨hmem, hra, hall⟩ := ih a r h
      refine ⟨?_, hra, ?_⟩
      · rcases hmem with h1 | h1
        · exact Or.inl h1
        · exact Or.inr (List.mem_cons_of_mem _ h1)
      · intro x hx
        rcases List.mem_cons.mp hx with h1 | h1
        · subst h1
          rcases hrc : optLt (key r) (key x) with _ | _
          · rfl
          · have := optLt_of_lt_of_not_lt hrc hac
            rw [this] at hra
            exact absurd hra (by simp)
        · exact hall x h1
    · rw [if_pos (by simp [hac])] at h
      obtain ⟨hmem, hrc, hall⟩ := ih c r h
      refine ⟨?_, ?_, ?_⟩
      · rcases hmem with h1 | h1
        · exact Or.inr (h1 ▸ List.mem_cons_self _ _)
        · exact Or.inr (List.mem_cons_of_mem _ h1)
      · rcases hra : optLt (key r) (key a) with _ | _
        · rfl
        · have := optLt_trans hra hac
          rw [this] at hrc
          exact absurd hrc (by simp)
      · intro x hx
        rcases List.mem_cons.mp hx with h1 | h1
        · subst h1; exact hrc
        · exact hall x h1

theorem argmaxByKey_spec {key : ContentRow → Option Rat} {l : List ContentRow}
    {r : ContentRow} (h : argmaxByKey key l = some r) :
    r ∈ l ∧ ∀ c ∈ l, optLt (key r) (key c) = false := by
  rcases l with _ | ⟨c, l⟩
  · exact absurd h (by simp [argmaxByKey])
  · unfold argmaxByKey at h
    simp only [List.foldl_cons, argmaxStep_none] at h
    obtain ⟨hmem, hrc, hall⟩ := argmaxStep_foldl_spec key l c r h
    refine ⟨?_, ?_⟩
    · rcases hmem with h1 | h1
      · exact h1 ▸ List.mem_cons_self _ _
      · exact List.mem_cons_of_mem _ h1
    · intro x hx
      rcases List.mem_cons.mp hx with h1 | h1
      · subst h1; exact hrc
      · exact hall x h1

theorem argmaxByKey_isSome (key : ContentRow → Option Rat) {l : List ContentRow}
    (h : l ≠ []) : ∃ r, argmaxByKey key l = some r := by
  rcases l with _ | ⟨c, l⟩
  · exact absurd rfl h
  · unfold argmaxByKey
    simp only [List.foldl_cons, argmaxStep_none]
    exact argmaxStep_foldl_some key l c

/-! ## Claims C2 and C7: the selection policy -/

/-- C2: when a quick model exists for (user, scheme), a tag is given
and the candidate set (sample, regex and frame filters, minus the
history) is nonempty and covered by the model's prediction index,
`get_next` with `selection = "maxprob"` returns a candidate whose
probability for the tag is maximal over all candidates. -/
theorem get_next_maxprob_argmax (ps : ProjectState)
    (matcher : String → String → Bool) (pick : List ContentRow → Option ContentRow)
    (scheme sample user T : String) (history : List String)
    (frame : Option (Rat × Rat × Rat × Rat)) (filt : Option String)
    (sm : SimpleModel)
    (hscheme : (ps.schemesSt.schemes.lookup scheme).isSome = true)
    (hsm : ps.simplemodels.lookup (user, scheme) = some sm)
    (hne : candidatesOf ps matcher scheme sample user frame filt history ≠ [])
    (hcov : ∀ r ∈ candidatesOf ps matcher scheme sample user frame filt history,
      sm.index.contains r.id = true) :
    ∃ r ∈ candidatesOf ps matcher scheme sample user frame filt history,
      (∀ c ∈ candidatesOf ps matcher scheme sample user frame filt history,
        sm.proba c.id T ≤ sm.proba r.id T) ∧
      ∃ out : NextElement,
        get_next ps matcher pick scheme "maxprob" sample user (some T) history
          frame filt = .ok out ∧ out.element_id = r.id := by
  obtain ⟨r, hr⟩ := argmaxByKey_isSome (fun c => probaOf sm T c.id) hne
  obtain ⟨hrmem, hrmax⟩ := argmaxByKey_spec hr
  have hkr : probaOf sm T r.id = some (sm.proba r.id T) := by
    unfold probaOf; rw [if_pos (hcov r hrmem)]
  refine ⟨r, hrmem, ?_, ?_⟩
  · intro c hc
    have h1 := hrmax c hc
    have hkc : probaOf sm T c.id = some (sm.proba c.id T) := by
      unfold probaOf; rw [if_pos (hcov c hc)]
    rw [hkr, hkc] at h1
    simp only [optLt, decide_eq_false_iff_not] at h1
    exact le_of_not_lt h1
  · have hn : (ps.schemesSt.schemes.lookup scheme).isNone = false := by
      rcases hx : ps.schemesSt.schemes.lookup scheme with _ | v
      · rw [hx] at hscheme; simp at hscheme
      · rfl
    have hrows : filteredRows ps matcher scheme sample user frame filt ≠ [] := by
      intro h0
      apply hne
      unfold candidatesOf
      rw [h0]
      rfl
    have hlen : ¬ (filteredRows ps matcher scheme sample user frame filt).length = 0 := by
      simpa [List.length_eq_zero] using hrows
    have hsel1 : (("maxprob" : String) == "test") = false := by decide
    have hsel2 : (("maxprob" : String) == "deterministic") = false := by decide
    have hsel3 : (("maxprob" : String) == "random") = false := by decide
    have hsel4 : (("maxprob" : String) == "maxprob") = true := by decide
    refine ⟨⟨r.id, r.text, r.context, "maxprob",
      some ("probability", probaOf sm T r.id), some (sm.prediction r.id),
      some (sm.proba r.id (sm.prediction r.id)), frame, r.lim,
      get_element_tags ps.schemesSt r.id scheme⟩, ?_, rfl⟩
    simp only [get_next, hn, Bool.false_eq_true, if_false, hsel1]
    rw [if_neg hlen]
    simp only [selectRow, hsel2, hsel3, hsel4, Bool.false_eq_true, if_false, if_true,
      hsm, hr, hcov r hrmem]
    rw [show argmaxByKey (fun r => probaOf sm T r.id)
        (List.filter (fun r => !history.contains r.id)
          (filteredRows ps matcher scheme sample user frame filt)) = some r from hr]
    simp only [hcov r hrmem, if_true]

/-- C2, witness: on a two-row project whose quick model scores `e2`
higher for tag `a`, maxprob selection picks a maximiser. -/
theorem get_next_maxprob_argmax_witness :
    ∃ r ∈ candidatesOf psWithModel (fun _ _ => true) "default" "untagged" "u1"
        none none [],
      (∀ c ∈ candidatesOf psWithModel (fun _ _ => true) "default" "untagged" "u1"
          none none [],
        smTwo.proba c.id "a" ≤ smTwo.proba r.id "a") ∧
      ∃ out : NextElement,
        get_next psWithModel (fun _ _ => true) List.head? "default" "maxprob"
          "untagged" "u1" (some "a") [] none none = .ok out ∧
          out.element_id = r.id :=
  get_next_maxprob_argmax psWithModel (fun _ _ => true) List.head? "default"
    "untagged" "u1" "a" [] none none smTwo (by decide) rfl (by decide) (by decide)

/-- C7 (amended): for every selection mode other than `test`, when the
sample, regex and frame filters — before the history exclusion —
leave zero rows, `get_next` returns the checked "No element available"
error.  (When the filters pass but the history empties the candidates,
or in `test` mode, the code raises an unclassified exception instead;
see the counterexample.) -/
theorem get_next_empty_filters (ps : ProjectState)
    (matcher : String → String → Bool) (pick : List ContentRow → Option ContentRow)
    (scheme selection sample user : String) (tag : Option String)
    (history : List String) (frame : Option (Rat × Rat × Rat × Rat))
    (filt : Option String)
    (hscheme : (ps.schemesSt.schemes.lookup scheme).isSome = true)
    (hsel : (selection == "test") = false)
    (hempty : filteredRows ps matcher scheme sample user frame filt = []) :
    get_next ps matcher pick scheme selection sample user tag history frame filt =
      .error .noElement := by
  have hn : (ps.schemesSt.schemes.lookup scheme).isNone = false := by
    rcases hx : ps.schemesSt.schemes.lookup scheme with _ | v
    · rw [hx] at hscheme; simp at hscheme
    · rfl
  simp only [get_next, hn, Bool.false_eq_true, if_false, hsel, hempty]
  simp

/-- C7, witness for the amended theorem: asking for a tagged element
of a project with no annotations yields the "No element available"
error. -/
theorem get_next_empty_filters_witness :
    get_next psEmptyModel (fun _ _ => true) List.head? "default" "deterministic"
      "tagged" "u" none [] none none = .error .noElement :=
  get_next_empty_filters psEmptyModel (fun _ _ => true) List.head? "default"
    "deterministic" "tagged" "u" none [] none none (by decide) (by decide) rfl

/-- C7, counterexample to the claim as stated: the single untagged
element passes the filters but sits in the caller's history, so the
candidate set is empty — yet the call raises the pandas `IndexError`
(`.index[0]` on an empty frame), not the "No element available"
error, because the zero-candidate check runs before the history
exclusion. -/
theorem get_next_history_exhausted :
    candidatesOf psEmptyModel (fun _ _ => true) "default" "untagged" "u"
        none none ["e1"] = [] ∧
      get_next psEmptyModel (fun _ _ => true) List.head? "default" "deterministic"
        "untagged" "u" none ["e1"] none none = .error .indexErr ∧
      GErr.indexErr ≠ GErr.noElement :=
  ⟨rfl, rfl, by decide⟩
